import Mathlib

/-!
Verification of the MOSA search-engine core of the `flying-pynguin` repository.

The development shallowly embeds the code of
`src/pynguin/generation/algorithms/abstractmosastrategy.py` and
`src/pynguin/assertion/assertion_to_ast.py`:

* chromosomes, goals and random-number state are abstract type parameters;
  the external collaborators (selection function, chromosome factory,
  crossover function, chromosome mutation, `randomness`) are supplied as an
  explicit environment of functions, and every call the Python code makes is
  mirrored by an application of the corresponding environment field;
* machine floats (`randomness.next_float`, crossover rate, insertion
  probability, fitness values) are modelled as rationals;
* `ConstructionFailedException` raised by the crossover function is modelled
  by an `Option` result; the `try/except` block is the corresponding `match`;
* the functions additionally record a trace of the external calls they
  perform, which lets theorems speak about how often an operation happened.
-/

/-! ## The inner loop of `_get_non_dominated_solutions` (lines 98-114)

The loop is independent of how the comparator was built, so it is embedded
first for an arbitrary integer-valued comparator `compare`, where
`compare a b < 0` means "`a` dominates `b`" and `0 < compare a b` means
"`b` dominates `a`", exactly the reading of `DominanceComparator.compare`. -/

/-- Embeds `if dominated_solution in next_front: next_front.remove(...)`
(lines 112-113); Python `list.remove` drops the first occurrence. -/
def eraseIfMem {α : Type} [DecidableEq α] (nf : List α) (dominated_solution : α) : List α :=
  if dominated_solution ∈ nf then nf.erase dominated_solution else nf

/-- One iteration of the outer `for solution in solutions` loop of
`_get_non_dominated_solutions` (lines 99-113): collect the members of
`next_front` dominated by `solution`, skip `solution` if some member
dominates it, otherwise append it and remove the dominated members. -/
def nonDominatedStep {α : Type} [DecidableEq α] (compare : α → α → Int)
    (next_front : List α) (solution : α) : List α :=
  let dominated_solutions := next_front.filter (fun best => decide (compare solution best < 0))
  let is_dominated := next_front.any (fun best => decide (0 < compare solution best))
  if is_dominated then next_front
  else dominated_solutions.foldl eraseIfMem (next_front ++ [solution])

/-- The whole loop of `_get_non_dominated_solutions` (lines 98-114) for an
arbitrary comparator: fold the per-solution step over the input, starting
from the empty front. -/
def getNonDominatedSolutions {α : Type} [DecidableEq α] (compare : α → α → Int)
    (solutions : List α) : List α :=
  solutions.foldl (nonDominatedStep compare) []

/-- Folding `eraseIfMem` over elements that all differ from the head leaves
the head in place. -/
lemma foldl_eraseIfMem_cons {α : Type} [DecidableEq α] (ds : List α) (x : α) (xs : List α)
    (h : ∀ d ∈ ds, d ≠ x) :
    ds.foldl eraseIfMem (x :: xs) = x :: ds.foldl eraseIfMem xs := by
  induction ds generalizing xs with
  | nil => rfl
  | cons d ds ih =>
    have hdx : d ≠ x := h d (by simp)
    have htail : ∀ e ∈ ds, e ≠ x := fun e he => h e (by simp [he])
    by_cases hd : d ∈ xs
    · simp only [List.foldl_cons, eraseIfMem]
      rw [if_pos (by simp [hd]), if_pos hd,
        List.erase_cons_tail (by simp [Ne.symm hdx])]
      exact ih _ htail
    · have hnot : d ∉ x :: xs := by simp [hdx, hd]
      simp only [List.foldl_cons, eraseIfMem]
      rw [if_neg hnot, if_neg hd]
      exact ih _ htail

/-- Folding `eraseIfMem` over elements that all differ from the appended last
element keeps that last element. -/
lemma foldl_eraseIfMem_append_last {α : Type} [DecidableEq α] (ds : List α) (l : List α)
    (s : α) (h : ∀ d ∈ ds, d ≠ s) :
    ds.foldl eraseIfMem (l ++ [s]) = ds.foldl eraseIfMem l ++ [s] := by
  induction ds generalizing l with
  | nil => rfl
  | cons d ds ih =>
    have hds : d ≠ s := h d (by simp)
    have htail : ∀ e ∈ ds, e ≠ s := fun e he => h e (by simp [he])
    by_cases hd : d ∈ l
    · simp only [List.foldl_cons, eraseIfMem]
      rw [if_pos (by simp [hd]), if_pos hd, List.erase_append, if_pos hd]
      exact ih _ htail
    · have hnot : d ∉ l ++ [s] := by simp [hd, hds]
      simp only [List.foldl_cons, eraseIfMem]
      rw [if_neg hnot, if_neg hd]
      exact ih _ htail

/-- Removing (first occurrences of) exactly the elements of `l.filter p`
from `l` leaves `l.filter (fun x => !p x)`. -/
lemma foldl_eraseIfMem_filter {α : Type} [DecidableEq α] (l : List α) (p : α → Bool) :
    (l.filter p).foldl eraseIfMem l = l.filter (fun x => !(p x)) := by
  induction l with
  | nil => rfl
  | cons x xs ih =>
    by_cases hx : p x
    · rw [List.filter_cons_of_pos hx]
      simp only [List.foldl_cons, eraseIfMem]
      rw [if_pos (by simp), List.erase_cons_head, ih,
        List.filter_cons_of_neg (by simp [hx])]
    · have hne : ∀ d ∈ xs.filter p, d ≠ x := by
        intro d hd hdx
        have : p d = true := (List.mem_filter.1 hd).2
        exact hx (hdx ▸ this)
      rw [List.filter_cons_of_neg (by simp [hx]),
        foldl_eraseIfMem_cons _ _ _ hne, ih,
        List.filter_cons_of_pos (by simp [hx])]

/-- When no member of the front dominates `solution`, one step of the loop
keeps exactly the members `solution` does not dominate, and appends
`solution`. -/
lemma nonDominatedStep_eq {α : Type} [DecidableEq α] (compare : α → α → Int)
    (hirr : ∀ a, compare a a = 0) (front : List α) (s : α)
    (hnd : front.any (fun best => decide (0 < compare s best)) = false) :
    nonDominatedStep compare front s
      = front.filter (fun best => !(decide (compare s best < 0))) ++ [s] := by
  simp only [nonDominatedStep]
  rw [if_neg (by simp [hnd])]
  have hne : ∀ d ∈ front.filter (fun best => decide (compare s best < 0)), d ≠ s := by
    intro d hd hds
    have hlt : compare s d < 0 := by
      have := (List.mem_filter.1 hd).2
      simpa using this
    rw [hds, hirr s] at hlt
    exact lt_irrefl 0 hlt
  rw [foldl_eraseIfMem_append_last _ _ _ hne, foldl_eraseIfMem_filter]

/-- Invariant propagation for the fold of `nonDominatedStep`: the front stays
a sublist of the processed input, stays mutually non-dominated, and stays
non-empty (and becomes non-empty as soon as a step appends). -/
lemma getNonDominatedSolutions_aux {α : Type} [DecidableEq α] (compare : α → α → Int)
    (hirr : ∀ a, compare a a = 0)
    (hsign : ∀ a b, compare a b < 0 ↔ 0 < compare b a) :
    ∀ (l front pre : List α), front.Sublist pre →
      (∀ a ∈ front, ∀ b ∈ front, ¬ compare a b < 0) →
      (l.foldl (nonDominatedStep compare) front).Sublist (pre ++ l)
      ∧ (∀ a ∈ l.foldl (nonDominatedStep compare) front,
          ∀ b ∈ l.foldl (nonDominatedStep compare) front, ¬ compare a b < 0)
      ∧ (front ≠ [] → l.foldl (nonDominatedStep compare) front ≠ []) := by
  intro l
  induction l with
  | nil =>
    intro front pre hsub hinv
    simp only [List.foldl_nil, List.append_nil]
    exact ⟨hsub, hinv, fun h => h⟩
  | cons s l ih =>
    intro front pre hsub hinv
    simp only [List.foldl_cons]
    by_cases hd : front.any (fun best => decide (0 < compare s best)) = true
    · have hstep : nonDominatedStep compare front s = front := by
        simp only [nonDominatedStep]
        rw [if_pos (by simp [hd])]
      rw [hstep]
      have hsub' : front.Sublist (pre ++ [s]) :=
        hsub.trans (List.sublist_append_left pre [s])
      obtain ⟨h1, h2, h3⟩ := ih front (pre ++ [s]) hsub' hinv
      refine ⟨by simpa [List.append_assoc] using h1, h2, h3⟩
    · have hnd : front.any (fun best => decide (0 < compare s best)) = false := by
        simpa using hd
      rw [nonDominatedStep_eq compare hirr front s hnd]
      have hdom : ∀ a ∈ front, ¬ 0 < compare s a := by
        intro a ha
        have := List.any_eq_false.1 hnd a ha
        simpa using this
      have hmem : ∀ a ∈ front.filter (fun best => !(decide (compare s best < 0))) ++ [s],
          (a ∈ front ∧ ¬ compare s a < 0) ∨ a = s := by
        intro a ha
        rcases List.mem_append.1 ha with h | h
        · rcases List.mem_filter.1 h with ⟨h1, h2⟩
          exact Or.inl ⟨h1, by simpa using h2⟩
        · exact Or.inr (by simpa using h)
      have hinv' : ∀ a ∈ front.filter (fun best => !(decide (compare s best < 0))) ++ [s],
          ∀ b ∈ front.filter (fun best => !(decide (compare s best < 0))) ++ [s],
          ¬ compare a b < 0 := by
        intro a ha b hb
        rcases hmem a ha with ⟨haf, _⟩ | rfl
        · rcases hmem b hb with ⟨hbf, _⟩ | rfl
          · exact hinv a haf b hbf
          · intro hab
            exact hdom a haf ((hsign a _).1 hab)
        · rcases hmem b hb with ⟨hbf, hsb⟩ | rfl
          · exact hsb
          · intro hab
            rw [hirr _] at hab
            exact lt_irrefl 0 hab
      have hsub' : (front.filter (fun best => !(decide (compare s best < 0))) ++ [s]).Sublist
          (pre ++ [s]) :=
        List.Sublist.append ((List.filter_sublist front).trans hsub) (List.Sublist.refl [s])
      obtain ⟨h1, h2, h3⟩ := ih _ (pre ++ [s]) hsub' hinv'
      refine ⟨by simpa [List.append_assoc] using h1, h2, fun _ => h3 (by simp)⟩

/-- Claim C8: for every non-empty input list and every comparator that is a
strict partial order (irreflexive, sign-antisymmetric, transitive),
`_get_non_dominated_solutions` returns a non-empty sublist of the input (so a
subset in the original input order) in which no returned element dominates
another returned element. -/
theorem C8_nonDominated_front {α : Type} [DecidableEq α] (compare : α → α → Int)
    (solutions : List α) (hne : solutions ≠ [])
    (hirr : ∀ a, compare a a = 0)
    (hsign : ∀ a b, compare a b < 0 ↔ 0 < compare b a)
    (htrans : ∀ a b c, compare a b < 0 → compare b c < 0 → compare a c < 0) :
    getNonDominatedSolutions compare solutions ≠ []
    ∧ (getNonDominatedSolutions compare solutions).Sublist solutions
    ∧ ∀ a ∈ getNonDominatedSolutions compare solutions,
        ∀ b ∈ getNonDominatedSolutions compare solutions, ¬ compare a b < 0 := by
  cases solutions with
  | nil => exact absurd rfl hne
  | cons x l =>
    have hstep : nonDominatedStep compare [] x = [x] := by
      simp [nonDominatedStep, eraseIfMem]
    have hfirst : getNonDominatedSolutions compare (x :: l)
        = l.foldl (nonDominatedStep compare) [x] := by
      simp only [getNonDominatedSolutions, List.foldl_cons, hstep]
    have hinv : ∀ a ∈ [x], ∀ b ∈ [x], ¬ compare a b < 0 := by
      intro a ha b hb
      have hax : a = x := by simpa using ha
      have hbx : b = x := by simpa using hb
      rw [hax, hbx, hirr x]
      exact lt_irrefl 0
    obtain ⟨h1, h2, h3⟩ := getNonDominatedSolutions_aux compare hirr hsign l [x] [x]
      (List.Sublist.refl [x]) hinv
    rw [hfirst]
    exact ⟨h3 (by simp), by simpa using h1, h2⟩

/-- A concrete strict-partial-order comparator on `Fin 3`: smaller values
dominate larger ones. -/
def cmpFin3 : Fin 3 → Fin 3 → Int :=
  fun a b => if a < b then -1 else if b < a then 1 else 0

theorem C8_nonDominated_front_witness :
    (([2, 1, 0] : List (Fin 3)) ≠ []
    ∧ (∀ a, cmpFin3 a a = 0)
    ∧ (∀ a b, cmpFin3 a b < 0 ↔ 0 < cmpFin3 b a)
    ∧ (∀ a b c, cmpFin3 a b < 0 → cmpFin3 b c < 0 → cmpFin3 a c < 0))
    ∧ (getNonDominatedSolutions cmpFin3 [2, 1, 0] ≠ []
    ∧ (getNonDominatedSolutions cmpFin3 [2, 1, 0]).Sublist [2, 1, 0]
    ∧ ∀ a ∈ getNonDominatedSolutions cmpFin3 [2, 1, 0],
        ∀ b ∈ getNonDominatedSolutions cmpFin3 [2, 1, 0], ¬ cmpFin3 a b < 0) :=
  ⟨⟨by decide, by decide, by decide, by decide⟩,
    C8_nonDominated_front cmpFin3 [2, 1, 0] (by decide) (by decide) (by decide) (by decide)⟩

/-! ## `_get_non_dominated_solutions` with the comparator the code builds
(lines 92-97) -/

/-- The archive as `_get_non_dominated_solutions` and `_breed_next_generation`
see it: its `covered_goals` and `solutions` views (the class itself lives
outside the embedded file). Python sets are modelled as lists. -/
structure Archive (γ α : Type) where
  covered_goals : List γ
  solutions : List α

/-- Modelled from the spec: the class `DominanceComparator`
(`pynguin/ga/comparators/dominancecomparator.py`) is not among the source
files, only its construction site is. Following §4.1, it holds the goal set
it compares on. -/
structure DominanceComparator (γ : Type) where
  goals : List γ

/-- Modelled from the spec: §4.1 — `compare(a, b)` returns -1 if `a`
dominates `b`, +1 if `b` dominates `a`, 0 otherwise; `a` dominates `b` iff
`a` is at-least-as-good on every goal of the comparator's goal set and
strictly better on at least one, lower fitness being better. -/
def DominanceComparator.compare {γ α : Type} (comparator : DominanceComparator γ)
    (fitness : α → γ → ℚ) (a b : α) : Int :=
  let aBetter := comparator.goals.any (fun g => decide (fitness a g < fitness b g))
  let bBetter := comparator.goals.any (fun g => decide (fitness b g < fitness a g))
  if aBetter && !bBetter then -1
  else if bBetter && !aBetter then 1
  else 0

/-- The goal set `_get_non_dominated_solutions` hands to the
`DominanceComparator` it builds (lines 95-97): the code passes
`self._archive.covered_goals`. -/
def mosaComparatorGoals {γ α : Type} (archive : Archive γ α) : List γ :=
  archive.covered_goals

/-- `_get_non_dominated_solutions` (lines 92-114): build a
`DominanceComparator` over `archive.covered_goals` and run the front
extraction loop with it. -/
def mosaGetNonDominatedSolutions {γ α : Type} [DecidableEq α] (fitness : α → γ → ℚ)
    (archive : Archive γ α) (solutions : List α) : List α :=
  let comparator : DominanceComparator γ := { goals := mosaComparatorGoals archive }
  getNonDominatedSolutions (comparator.compare fitness) solutions

/-- Fitness table for the C1 scenario: chromosome 1 misses goal 1 by 5,
everything else is covered (fitness 0). -/
def fitnessC1 : Nat → Nat → ℚ :=
  fun c g => if c = 1 ∧ g = 1 then 5 else 0

/-- C1 scenario: two goals 0 and 1, goal 0 already covered. -/
def archiveC1 : Archive Nat Nat :=
  { covered_goals := [0], solutions := [] }

/-- Claim C1 (code bug): the comparator built by
`_get_non_dominated_solutions` takes `covered_goals` — not the uncovered
goals — as its goal set. With goals {0, 1} of which 0 is covered, the code
compares on `[0]` and keeps both chromosomes in the front, while a
comparator over the uncovered goal `[1]` (what the claim and §4.1 state)
would keep only chromosome 0, which dominates chromosome 1 there. -/
theorem C1_comparator_goals_covered_not_uncovered :
    mosaComparatorGoals archiveC1 = [0]
    ∧ mosaGetNonDominatedSolutions fitnessC1 archiveC1 [0, 1] = [0, 1]
    ∧ getNonDominatedSolutions
        (DominanceComparator.compare { goals := [1] } fitnessC1) [0, 1] = [0] := by
  refine ⟨rfl, by decide, by decide⟩

/-! ## `_breed_next_generation` and `_mutate` (lines 38-90)

Chromosomes (`α`), fitness functions (`φ`) and the random-number-generator
state (`ρ`) are abstract; the external collaborators are an explicit
environment.  Every environment call the embedded code performs is recorded
in an event trace so that theorems can count calls and iterations. -/

/-- The configuration fields `_breed_next_generation` reads. Floats are
modelled as rationals. -/
structure Config where
  population : Nat
  crossover_rate : ℚ
  test_insertion_probability : ℚ

/-- External calls and loop entries recorded while breeding. -/
inductive Event where
  | pairIteration
  | injectionIteration
  | selectCall
  | crossOverCall (failed : Bool)
  | mutateCall
  | getChromosomeCall
  | choiceCall
  deriving DecidableEq

/-- The collaborators of `AbstractMOSATestStrategy` as an environment:
`_selection_function.select(...)[0]`, `randomness.next_float`,
`randomness.next_bool`, `randomness.choice`,
`_chromosome_factory.get_chromosome`, `_crossover_function.cross_over`
(`none` models a raised `ConstructionFailedException`), and the chromosome
operations `clone`, `mutate`, `has_changed`, `size`,
`add_fitness_function`. -/
structure Env (α φ ρ : Type) where
  nextFloat : ρ → ℚ × ρ
  nextBool : ρ → Bool × ρ
  select : List α → ρ → α × ρ
  choice : List α → ρ → α × ρ
  getChromosome : ρ → α × ρ
  crossOver : α → α → ρ → Option (α × α) × ρ
  mutate : α → ρ → α × ρ
  clone : α → α
  hasChanged : α → Bool
  size : α → Nat
  addFitnessFunction : α → φ → α
  fitnessFunctions : List φ

/-- Mutable state threaded through `_breed_next_generation`: the
`offspring_population` list, the random-generator state, and the recorded
event trace. -/
structure BreedState (α ρ : Type) where
  offspring : List α
  rng : ρ
  trace : List Event

/-- The static method `_mutate` (lines 85-90): mutate once, and once more if
the first mutation left `has_changed()` false. Returns the chromosome, the
generator state, and the `mutateCall` events performed. -/
def mutateOffspring {α φ ρ : Type} (env : Env α φ ρ) (offspring : α) (r : ρ) :
    α × ρ × List Event :=
  let (c1, r1) := env.mutate offspring r
  if env.hasChanged c1 then (c1, r1, [Event.mutateCall])
  else
    let (c2, r2) := env.mutate c1 r1
    (c2, r2, [Event.mutateCall, Event.mutateCall])

/-- The retention guard `if tch.has_changed() and tch.size() > 0:
offspring_population.append(tch)` (lines 55-56, 60-61, 79-80). -/
def keepIfValid {α φ ρ : Type} (env : Env α φ ρ) (offspring_population : List α) (tch : α) :
    List α :=
  if env.hasChanged tch ∧ 0 < env.size tch then offspring_population ++ [tch]
  else offspring_population

/-- Lines 54-61: mutate both offspring in order and retain each under the
changed/size guard. -/
def pairMutatePhase {α φ ρ : Type} (env : Env α φ ρ) (offspring_population : List α)
    (offspring_1 offspring_2 : α) (r : ρ) (tr : List Event) : BreedState α ρ :=
  let (m1, r1, e1) := mutateOffspring env offspring_1 r
  let kept1 := keepIfValid env offspring_population m1
  let (m2, r2, e2) := mutateOffspring env offspring_2 r1
  let kept2 := keepIfValid env kept1 m2
  { offspring := kept2, rng := r2, trace := tr ++ e1 ++ e2 }

/-- One iteration of the pair-breeding loop (lines 40-61): select two
parents, clone them, with probability `crossover_rate` attempt crossover
(`continue` on `ConstructionFailedException`), then mutate and filter. -/
def pairStep {α φ ρ : Type} (env : Env α φ ρ) (cfg : Config) (population : List α)
    (s : BreedState α ρ) : BreedState α ρ :=
  let (parent_1, r1) := env.select population s.rng
  let (parent_2, r2) := env.select population r1
  let offspring_1 := env.clone parent_1
  let offspring_2 := env.clone parent_2
  let (f, r3) := env.nextFloat r2
  let tr := s.trace ++ [Event.pairIteration, Event.selectCall, Event.selectCall]
  if f ≤ cfg.crossover_rate then
    match env.crossOver offspring_1 offspring_2 r3 with
    | (none, r4) =>
        { offspring := s.offspring, rng := r4, trace := tr ++ [Event.crossOverCall true] }
    | (some (c1, c2), r4) =>
        pairMutatePhase env s.offspring c1 c2 r4 (tr ++ [Event.crossOverCall false])
  else
    pairMutatePhase env s.offspring offspring_1 offspring_2 r3 tr

/-- Python `int()` truncation of the product of a non-negative integer and a
rational, computed exactly on the numerator/denominator representation:
`int(p * q) = (p * q.num) tdiv q.den`. -/
def pyIntTimesNat (p : Nat) (q : ℚ) : Int :=
  ((p : Int) * q.num).tdiv (q.den : Int)

/-- Number of iterations of the random-injection loop (lines 65-70):
`int(config.configuration.population * config.configuration.test_insertion_probability)`. -/
def injectionIterations (cfg : Config) : Nat :=
  (pyIntTimesNat cfg.population cfg.test_insertion_probability).toNat

/-- One iteration of the random-injection loop (lines 71-80): when no goal
is covered, or on a true `next_bool()` (short-circuited, so the coin is only
tossed when some goal is covered), build a fresh factory chromosome and
attach all fitness functions; otherwise clone a `randomness.choice` of the
archive's solutions and mutate it once; retain under the changed/size
guard. -/
def injectStep {α φ ρ γ : Type} (env : Env α φ ρ) (archive : Archive γ α)
    (s : BreedState α ρ) : BreedState α ρ :=
  let tr := s.trace ++ [Event.injectionIteration]
  if archive.covered_goals.isEmpty then
    let (t, r1) := env.getChromosome s.rng
    let tch := env.fitnessFunctions.foldl env.addFitnessFunction t
    { offspring := keepIfValid env s.offspring tch, rng := r1,
      trace := tr ++ [Event.getChromosomeCall] }
  else
    let (b, r1) := env.nextBool s.rng
    if b then
      let (t, r2) := env.getChromosome r1
      let tch := env.fitnessFunctions.foldl env.addFitnessFunction t
      { offspring := keepIfValid env s.offspring tch, rng := r2,
        trace := tr ++ [Event.getChromosomeCall] }
    else
      let (c, r2) := env.choice archive.solutions r1
      let (tch, r3) := env.mutate (env.clone c) r2
      { offspring := keepIfValid env s.offspring tch, rng := r3,
        trace := tr ++ [Event.choiceCall, Event.mutateCall] }

/-- `_breed_next_generation` (lines 38-83): `int(population / 2)` iterations
of the pair-breeding loop starting from an empty offspring list, then
`int(population * test_insertion_probability)` iterations of the
random-injection loop. -/
def breedNextGeneration {α φ ρ γ : Type} (env : Env α φ ρ) (cfg : Config)
    (archive : Archive γ α) (population : List α) (r : ρ) : BreedState α ρ :=
  let s1 := (List.range (cfg.population / 2)).foldl
    (fun s _ => pairStep env cfg population s)
    { offspring := [], rng := r, trace := [] }
  (List.range (injectionIterations cfg)).foldl (fun s _ => injectStep env archive s) s1

/-! ## Generic facts about the breeding folds -/

/-- A property of the breeding state preserved by a step is preserved by any
`for _ in range(...)`-style fold of that step. -/
lemma foldl_const_pres {α ρ β : Type} (f : BreedState α ρ → BreedState α ρ)
    (P : BreedState α ρ → Prop) (hf : ∀ s, P s → P (f s)) :
    ∀ (l : List β) (s : BreedState α ρ), P s → P (l.foldl (fun s _ => f s) s) := by
  intro l
  induction l with
  | nil => intro s hs; simpa using hs
  | cons x xs ih =>
    intro s hs
    simp only [List.foldl_cons]
    exact ih (f s) (hf s hs)

/-- A numeric measure that a step increases by exactly `d` grows by
`d * length` across the fold. -/
lemma foldl_const_count {α ρ β : Type} (f : BreedState α ρ → BreedState α ρ)
    (g : BreedState α ρ → Nat) (d : Nat) (hf : ∀ s, g (f s) = g s + d) :
    ∀ (l : List β) (s : BreedState α ρ),
      g (l.foldl (fun s _ => f s) s) = g s + d * l.length := by
  intro l
  induction l with
  | nil => intro s; simp
  | cons x xs ih =>
    intro s
    simp only [List.foldl_cons, List.length_cons]
    rw [ih (f s), hf]
    ring

/-- A numeric measure that a step increases by at most `d` grows by at most
`d * length` across the fold. -/
lemma foldl_const_le {α ρ β : Type} (f : BreedState α ρ → BreedState α ρ)
    (g : BreedState α ρ → Nat) (d : Nat) (hf : ∀ s, g (f s) ≤ g s + d) :
    ∀ (l : List β) (s : BreedState α ρ),
      g (l.foldl (fun s _ => f s) s) ≤ g s + d * l.length := by
  intro l
  induction l with
  | nil => intro s; simp
  | cons x xs ih =>
    intro s
    simp only [List.foldl_cons, List.length_cons]
    calc g (xs.foldl (fun s _ => f s) (f s)) ≤ g (f s) + d * xs.length := ih (f s)
    _ ≤ g s + d + d * xs.length := by have := hf s; omega
    _ = g s + d * (xs.length + 1) := by ring

/-- `_mutate` performs either one or two `mutate()` calls. -/
lemma mutateOffspring_events {α φ ρ : Type} (env : Env α φ ρ) (c : α) (r : ρ) :
    (mutateOffspring env c r).2.2 = [Event.mutateCall]
    ∨ (mutateOffspring env c r).2.2 = [Event.mutateCall, Event.mutateCall] := by
  rcases hm : env.mutate c r with ⟨c1, r1⟩
  simp only [mutateOffspring, hm]
  by_cases h : env.hasChanged c1
  · rw [if_pos h]
    exact Or.inl rfl
  · rw [if_neg h]
    rcases hm2 : env.mutate c1 r1 with ⟨c2, r2⟩
    exact Or.inr rfl

/-- The mutate-and-filter phase only appends `mutateCall` events. -/
lemma pairMutatePhase_trace_shape {α φ ρ : Type} (env : Env α φ ρ)
    (offspring_population : List α) (o1 o2 : α) (r : ρ) (tr : List Event) :
    ∃ rest : List Event,
      (pairMutatePhase env offspring_population o1 o2 r tr).trace = tr ++ rest
      ∧ ∀ e ∈ rest, e = Event.mutateCall := by
  rcases hm1 : mutateOffspring env o1 r with ⟨m1, r1, e1⟩
  rcases hm2 : mutateOffspring env o2 r1 with ⟨m2, r2, e2⟩
  refine ⟨e1 ++ e2, ?_, ?_⟩
  · simp only [pairMutatePhase, hm1, hm2, List.append_assoc]
  · intro e he
    have h1 : e1 = [Event.mutateCall] ∨ e1 = [Event.mutateCall, Event.mutateCall] := by
      have := mutateOffspring_events env o1 r
      rwa [hm1] at this
    have h2 : e2 = [Event.mutateCall] ∨ e2 = [Event.mutateCall, Event.mutateCall] := by
      have := mutateOffspring_events env o2 r1
      rwa [hm2] at this
    rcases List.mem_append.1 he with he' | he'
    · rcases h1 with h | h <;> (rw [h] at he'; simpa using he')
    · rcases h2 with h | h <;> (rw [h] at he'; simpa using he')

/-- One pair iteration prepends `pairIteration, selectCall, selectCall` and
otherwise only records crossover and mutate events. -/
lemma pairStep_trace_shape {α φ ρ : Type} (env : Env α φ ρ) (cfg : Config)
    (population : List α) (s : BreedState α ρ) :
    ∃ rest : List Event,
      (pairStep env cfg population s).trace
        = s.trace ++ [Event.pairIteration, Event.selectCall, Event.selectCall] ++ rest
      ∧ ∀ e ∈ rest, e = Event.mutateCall ∨ ∃ b, e = Event.crossOverCall b := by
  rcases hs1 : env.select population s.rng with ⟨parent_1, r1⟩
  rcases hs2 : env.select population r1 with ⟨parent_2, r2⟩
  rcases hf : env.nextFloat r2 with ⟨f, r3⟩
  simp only [pairStep, hs1, hs2, hf]
  by_cases hle : f ≤ cfg.crossover_rate
  · rw [if_pos hle]
    rcases hco : env.crossOver (env.clone parent_1) (env.clone parent_2) r3 with ⟨co, r4⟩
    cases co with
    | none =>
      refine ⟨[Event.crossOverCall true], by simp [List.append_assoc], ?_⟩
      intro e he
      right
      exact ⟨true, by simpa using he⟩
    | some pair =>
      rcases pair with ⟨c1, c2⟩
      obtain ⟨rest, heq, hmem⟩ := pairMutatePhase_trace_shape env s.offspring c1 c2 r4
        (s.trace ++ [Event.pairIteration, Event.selectCall, Event.selectCall]
          ++ [Event.crossOverCall false])
      refine ⟨[Event.crossOverCall false] ++ rest, ?_, ?_⟩
      · rw [heq]
        simp [List.append_assoc]
      · intro e he
        rcases List.mem_append.1 he with he' | he'
        · exact Or.inr ⟨false, by simpa using he'⟩
        · exact Or.inl (hmem e he')
  · rw [if_neg hle]
    obtain ⟨rest, heq, hmem⟩ := pairMutatePhase_trace_shape env s.offspring
      (env.clone parent_1) (env.clone parent_2) r3
      (s.trace ++ [Event.pairIteration, Event.selectCall, Event.selectCall])
    exact ⟨rest, heq, fun e he => Or.inl (hmem e he)⟩

/-- One injection iteration prepends `injectionIteration` and otherwise only
records factory, choice and mutate events. -/
lemma injectStep_trace_shape {α φ ρ γ : Type} (env : Env α φ ρ) (archive : Archive γ α)
    (s : BreedState α ρ) :
    ∃ rest : List Event,
      (injectStep env archive s).trace = s.trace ++ [Event.injectionIteration] ++ rest
      ∧ ∀ e ∈ rest,
          e = Event.getChromosomeCall ∨ e = Event.choiceCall ∨ e = Event.mutateCall := by
  simp only [injectStep]
  by_cases hemp : archive.covered_goals.isEmpty
  · rw [if_pos hemp]
    rcases hg : env.getChromosome s.rng with ⟨t, r1⟩
    refine ⟨[Event.getChromosomeCall], by simp [List.append_assoc], ?_⟩
    intro e he
    exact Or.inl (by simpa using he)
  · rw [if_neg hemp]
    rcases hb : env.nextBool s.rng with ⟨b, r1⟩
    cases b with
    | true =>
      rcases hg : env.getChromosome r1 with ⟨t, r2⟩
      refine ⟨[Event.getChromosomeCall], by simp [hb, hg, List.append_assoc], ?_⟩
      intro e he
      exact Or.inl (by simpa using he)
    | false =>
      rcases hc : env.choice archive.solutions r1 with ⟨c, r2⟩
      rcases hm : env.mutate (env.clone c) r2 with ⟨tch, r3⟩
      refine ⟨[Event.choiceCall, Event.mutateCall], by simp [hb, hc, hm, List.append_assoc], ?_⟩
      intro e he
      rcases (by simpa using he : e = Event.choiceCall ∨ e = Event.mutateCall) with h | h
      · exact Or.inr (Or.inl h)
      · exact Or.inr (Or.inr h)

/-- Claim C5: `_mutate` calls `mutate()` once, and exactly one additional
time iff the first call left `has_changed()` false; never more than twice. -/
theorem C5_mutate_retry_once {α φ ρ : Type} (env : Env α φ ρ) (c : α) (r : ρ) :
    ((mutateOffspring env c r).2.2).count Event.mutateCall
      = (if env.hasChanged (env.mutate c r).1 then 1 else 2)
    ∧ ((mutateOffspring env c r).2.2).count Event.mutateCall ≤ 2 := by
  rcases hm : env.mutate c r with ⟨c1, r1⟩
  simp only [mutateOffspring, hm]
  by_cases h : env.hasChanged c1
  · rw [if_pos h, if_pos h]
    refine ⟨?_, ?_⟩ <;> simp [List.count_cons]
  · rw [if_neg h, if_neg h]
    refine ⟨?_, ?_⟩ <;> simp [List.count_cons]

/-- For a non-negative rational factor, the exact integer truncation agrees
with the real-arithmetic floor of the product: `int(p * q) = ⌊p * q⌋`. -/
lemma pyIntTimesNat_eq_floor (p : Nat) (q : ℚ) (hq : 0 ≤ q) :
    pyIntTimesNat p q = Int.floor ((p : ℚ) * q) := by
  have hnum : 0 ≤ q.num := Rat.num_nonneg.2 hq
  have hmul : (((p : Int) * q.num : Int) : ℚ) / ((q.den : ℕ) : ℚ) = (p : ℚ) * q := by
    push_cast
    rw [mul_div_assoc, Rat.num_div_den]
  rw [← hmul, Rat.floor_intCast_div_natCast, pyIntTimesNat]
  exact Int.tdiv_eq_ediv (mul_nonneg (Int.natCast_nonneg p) hnum) (Int.natCast_nonneg q.den)

/-- Claim C7: per generation, `_breed_next_generation` performs exactly
`int(population / 2)` parent-pair iterations and exactly
`int(population * insertion_probability)` (the floor of the product)
random-injection iterations, for every environment and configuration with a
non-negative insertion probability. -/
theorem C7_iteration_counts {α φ ρ γ : Type} (env : Env α φ ρ) (cfg : Config)
    (archive : Archive γ α) (population : List α) (r : ρ)
    (hprob : 0 ≤ cfg.test_insertion_probability) :
    ((breedNextGeneration env cfg archive population r).trace).count Event.pairIteration
      = cfg.population / 2
    ∧ ((breedNextGeneration env cfg archive population r).trace).count Event.injectionIteration
      = (Int.floor ((cfg.population : ℚ) * cfg.test_insertion_probability)).toNat := by
  have hpair1 : ∀ s : BreedState α ρ,
      ((pairStep env cfg population s).trace).count Event.pairIteration
        = (s.trace).count Event.pairIteration + 1 := by
    intro s
    obtain ⟨rest, heq, hmem⟩ := pairStep_trace_shape env cfg population s
    rw [heq, List.count_append, List.count_append]
    have h0 : rest.count Event.pairIteration = 0 := by
      rw [List.count_eq_zero]
      intro hmem'
      rcases hmem _ hmem' with h | ⟨b, h⟩ <;> simp at h
    have h1 : ([Event.pairIteration, Event.selectCall, Event.selectCall] :
        List Event).count Event.pairIteration = 1 := by decide
    omega
  have hpair0 : ∀ s : BreedState α ρ,
      ((pairStep env cfg population s).trace).count Event.injectionIteration
        = (s.trace).count Event.injectionIteration + 0 := by
    intro s
    obtain ⟨rest, heq, hmem⟩ := pairStep_trace_shape env cfg population s
    rw [heq, List.count_append, List.count_append]
    have h0 : rest.count Event.injectionIteration = 0 := by
      rw [List.count_eq_zero]
      intro hmem'
      rcases hmem _ hmem' with h | ⟨b, h⟩ <;> simp at h
    have h1 : ([Event.pairIteration, Event.selectCall, Event.selectCall] :
        List Event).count Event.injectionIteration = 0 := by decide
    omega
  have hinj1 : ∀ s : BreedState α ρ,
      ((injectStep env archive s).trace).count Event.injectionIteration
        = (s.trace).count Event.injectionIteration + 1 := by
    intro s
    obtain ⟨rest, heq, hmem⟩ := injectStep_trace_shape env archive s
    rw [heq, List.count_append, List.count_append]
    have h0 : rest.count Event.injectionIteration = 0 := by
      rw [List.count_eq_zero]
      intro hmem'
      rcases hmem _ hmem' with h | h | h <;> simp at h
    have h1 : ([Event.injectionIteration] : List Event).count Event.injectionIteration = 1 := by
      decide
    omega
  have hinj0 : ∀ s : BreedState α ρ,
      ((injectStep env archive s).trace).count Event.pairIteration
        = (s.trace).count Event.pairIteration + 0 := by
    intro s
    obtain ⟨rest, heq, hmem⟩ := injectStep_trace_shape env archive s
    rw [heq, List.count_append, List.count_append]
    have h0 : rest.count Event.pairIteration = 0 := by
      rw [List.count_eq_zero]
      intro hmem'
      rcases hmem _ hmem' with h | h | h <;> simp at h
    have h1 : ([Event.injectionIteration] : List Event).count Event.pairIteration = 0 := by
      decide
    omega
  simp only [breedNextGeneration]
  constructor
  · rw [foldl_const_count (injectStep env archive)
        (fun s => (s.trace).count Event.pairIteration) 0 hinj0,
      foldl_const_count (pairStep env cfg population)
        (fun s => (s.trace).count Event.pairIteration) 1 hpair1]
    simp
  · rw [foldl_const_count (injectStep env archive)
        (fun s => (s.trace).count Event.injectionIteration) 1 hinj1,
      foldl_const_count (pairStep env cfg population)
        (fun s => (s.trace).count Event.injectionIteration) 0 hpair0]
    simp only [List.count_nil, List.length_range, Nat.zero_add, Nat.mul_zero, Nat.one_mul,
      Nat.add_zero, Nat.zero_mul]
    rw [injectionIterations, pyIntTimesNat_eq_floor _ _ hprob]

/-- A concrete fully-computable environment over `Nat` chromosomes: every
operation is deterministic, chromosomes always count as changed and have
size 1, crossover always succeeds. -/
def envX : Env Nat Unit Nat :=
  { nextFloat := fun r => (0, r + 1)
    nextBool := fun r => (true, r + 1)
    select := fun population r => (population.headD 0, r + 1)
    choice := fun xs r => (xs.headD 0, r + 1)
    getChromosome := fun r => (100 + r, r + 1)
    crossOver := fun a b r => (some (a, b), r + 1)
    mutate := fun c r => (c, r + 1)
    clone := fun c => c
    hasChanged := fun _ => true
    size := fun _ => 1
    addFitnessFunction := fun c _ => c
    fitnessFunctions := [] }

/-- Concrete configuration: target size 2, crossover always, insertion
probability one half. -/
def cfgX : Config :=
  { population := 2, crossover_rate := 1, test_insertion_probability := mkRat 1 2 }

/-- Concrete archive with no covered goals and no solutions. -/
def archiveX : Archive Nat Nat :=
  { covered_goals := [], solutions := [] }

theorem C7_iteration_counts_witness :
    (0 ≤ cfgX.test_insertion_probability)
    ∧ (((breedNextGeneration envX cfgX archiveX [5, 7] 0).trace).count Event.pairIteration
        = cfgX.population / 2
      ∧ ((breedNextGeneration envX cfgX archiveX [5, 7] 0).trace).count Event.injectionIteration
        = (Int.floor ((cfgX.population : ℚ) * cfgX.test_insertion_probability)).toNat) :=
  ⟨by decide, C7_iteration_counts envX cfgX archiveX [5, 7] 0 (by decide)⟩

/-! ## Offspring size and validity -/

/-- The retention guard appends at most one chromosome. -/
lemma keepIfValid_length {α φ ρ : Type} (env : Env α φ ρ) (off : List α) (tch : α) :
    (keepIfValid env off tch).length ≤ off.length + 1 := by
  unfold keepIfValid
  by_cases h : env.hasChanged tch ∧ 0 < env.size tch
  · rw [if_pos h]
    simp
  · rw [if_neg h]
    omega

/-- The mutate-and-filter phase appends at most two chromosomes. -/
lemma pairMutatePhase_length {α φ ρ : Type} (env : Env α φ ρ) (off : List α)
    (o1 o2 : α) (r : ρ) (tr : List Event) :
    (pairMutatePhase env off o1 o2 r tr).offspring.length ≤ off.length + 2 := by
  rcases hm1 : mutateOffspring env o1 r with ⟨m1, r1, e1⟩
  rcases hm2 : mutateOffspring env o2 r1 with ⟨m2, r2, e2⟩
  simp only [pairMutatePhase, hm1, hm2]
  have h1 := keepIfValid_length env off m1
  have h2 := keepIfValid_length env (keepIfValid env off m1) m2
  omega

/-- One pair iteration appends at most two chromosomes. -/
lemma pairStep_length {α φ ρ : Type} (env : Env α φ ρ) (cfg : Config)
    (population : List α) (s : BreedState α ρ) :
    (pairStep env cfg population s).offspring.length ≤ s.offspring.length + 2 := by
  rcases hs1 : env.select population s.rng with ⟨parent_1, r1⟩
  rcases hs2 : env.select population r1 with ⟨parent_2, r2⟩
  rcases hf : env.nextFloat r2 with ⟨f, r3⟩
  simp only [pairStep, hs1, hs2, hf]
  by_cases hle : f ≤ cfg.crossover_rate
  · rw [if_pos hle]
    rcases hco : env.crossOver (env.clone parent_1) (env.clone parent_2) r3 with ⟨co, r4⟩
    cases co with
    | none => simp
    | some pair =>
      rcases pair with ⟨c1, c2⟩
      exact pairMutatePhase_length env s.offspring c1 c2 r4 _
  · rw [if_neg hle]
    exact pairMutatePhase_length env s.offspring (env.clone parent_1) (env.clone parent_2) r3 _

/-- One injection iteration appends at most one chromosome. -/
lemma injectStep_length {α φ ρ γ : Type} (env : Env α φ ρ) (archive : Archive γ α)
    (s : BreedState α ρ) :
    (injectStep env archive s).offspring.length ≤ s.offspring.length + 1 := by
  simp only [injectStep]
  by_cases hemp : archive.covered_goals.isEmpty
  · rw [if_pos hemp]
    exact keepIfValid_length env s.offspring _
  · rw [if_neg hemp]
    by_cases hb : (env.nextBool s.rng).1 = true
    · rw [if_pos hb]
      exact keepIfValid_length env s.offspring _
    · rw [if_neg hb]
      exact keepIfValid_length env s.offspring _

/-- Claim C2, amended: the offspring list of `_breed_next_generation` has at
most `2·(population div 2) + int(population · insertion_probability)`
elements (the claimed bound `population` itself is exceeded as soon as the
injection loop runs, see the counterexample). -/
theorem C2_offspring_bound {α φ ρ γ : Type} (env : Env α φ ρ) (cfg : Config)
    (archive : Archive γ α) (population : List α) (r : ρ) :
    (breedNextGeneration env cfg archive population r).offspring.length
      ≤ 2 * (cfg.population / 2) + injectionIterations cfg := by
  simp only [breedNextGeneration]
  have h1 := foldl_const_le (pairStep env cfg population) (fun s => s.offspring.length) 2
    (pairStep_length env cfg population) (List.range (cfg.population / 2))
    { offspring := [], rng := r, trace := [] }
  have h2 := foldl_const_le (injectStep env archive) (fun s => s.offspring.length) 1
    (injectStep_length env archive) (List.range (injectionIterations cfg))
    ((List.range (cfg.population / 2)).foldl (fun s _ => pairStep env cfg population s)
      { offspring := [], rng := r, trace := [] })
  simp only [List.length_range, List.length_nil] at h1 h2
  omega

/-- Claim C2, counterexample: with population 2, crossover rate 1 and
insertion probability 1/2, one breeding step returns 3 offspring, exceeding
the target size 2, and parents plus offspring exceed 2×target. -/
theorem C2_counterexample :
    ¬ ((breedNextGeneration envX cfgX archiveX [5, 7] 0).offspring.length ≤ cfgX.population)
    ∧ ¬ (([5, 7] : List Nat).length
        + (breedNextGeneration envX cfgX archiveX [5, 7] 0).offspring.length
        ≤ 2 * cfgX.population) :=
  ⟨by decide, by decide⟩

/-- Membership after the retention guard: either an old element, or a
chromosome satisfying the guard. -/
lemma keepIfValid_mem {α φ ρ : Type} (env : Env α φ ρ) (off : List α) (tch c : α)
    (hc : c ∈ keepIfValid env off tch) :
    c ∈ off ∨ (env.hasChanged c = true ∧ 0 < env.size c) := by
  unfold keepIfValid at hc
  by_cases h : env.hasChanged tch ∧ 0 < env.size tch
  · rw [if_pos h] at hc
    rcases List.mem_append.1 hc with h' | h'
    · exact Or.inl h'
    · have hct : c = tch := by simpa using h'
      subst hct
      exact Or.inr h
  · rw [if_neg h] at hc
    exact Or.inl hc

lemma pairMutatePhase_mem {α φ ρ : Type} (env : Env α φ ρ) (off : List α)
    (o1 o2 : α) (r : ρ) (tr : List Event) (c : α)
    (hc : c ∈ (pairMutatePhase env off o1 o2 r tr).offspring) :
    c ∈ off ∨ (env.hasChanged c = true ∧ 0 < env.size c) := by
  rcases hm1 : mutateOffspring env o1 r with ⟨m1, r1, e1⟩
  rcases hm2 : mutateOffspring env o2 r1 with ⟨m2, r2, e2⟩
  simp only [pairMutatePhase, hm1, hm2] at hc
  rcases keepIfValid_mem env _ _ _ hc with h | h
  · exact keepIfValid_mem env _ _ _ h
  · exact Or.inr h

lemma pairStep_mem {α φ ρ : Type} (env : Env α φ ρ) (cfg : Config) (population : List α)
    (s : BreedState α ρ) (c : α) (hc : c ∈ (pairStep env cfg population s).offspring) :
    c ∈ s.offspring ∨ (env.hasChanged c = true ∧ 0 < env.size c) := by
  rcases hs1 : env.select population s.rng with ⟨parent_1, r1⟩
  rcases hs2 : env.select population r1 with ⟨parent_2, r2⟩
  rcases hf : env.nextFloat r2 with ⟨f, r3⟩
  simp only [pairStep, hs1, hs2, hf] at hc
  by_cases hle : f ≤ cfg.crossover_rate
  · rw [if_pos hle] at hc
    rcases hco : env.crossOver (env.clone parent_1) (env.clone parent_2) r3 with ⟨co, r4⟩
    cases co with
    | none =>
      simp only [hco] at hc
      exact Or.inl hc
    | some pair =>
      rcases pair with ⟨c1, c2⟩
      simp only [hco] at hc
      exact pairMutatePhase_mem env s.offspring c1 c2 r4 _ c hc
  · rw [if_neg hle] at hc
    exact pairMutatePhase_mem env s.offspring (env.clone parent_1) (env.clone parent_2) r3 _ c hc

lemma injectStep_mem {α φ ρ γ : Type} (env : Env α φ ρ) (archive : Archive γ α)
    (s : BreedState α ρ) (c : α) (hc : c ∈ (injectStep env archive s).offspring) :
    c ∈ s.offspring ∨ (env.hasChanged c = true ∧ 0 < env.size c) := by
  simp only [injectStep] at hc
  by_cases hemp : archive.covered_goals.isEmpty
  · rw [if_pos hemp] at hc
    exact keepIfValid_mem env _ _ _ hc
  · rw [if_neg hemp] at hc
    by_cases hb : (env.nextBool s.rng).1 = true
    · rw [if_pos hb] at hc
      exact keepIfValid_mem env _ _ _ hc
    · rw [if_neg hb] at hc
      exact keepIfValid_mem env _ _ _ hc

/-- Claim C3: every chromosome retained by `_breed_next_generation` — bred
offspring and injected candidates alike — has `has_changed() == true` and
`size() > 0`. -/
theorem C3_offspring_validity {α φ ρ γ : Type} (env : Env α φ ρ) (cfg : Config)
    (archive : Archive γ α) (population : List α) (r : ρ) :
    ∀ c ∈ (breedNextGeneration env cfg archive population r).offspring,
      env.hasChanged c = true ∧ 0 < env.size c := by
  have hstep1 : ∀ s : BreedState α ρ,
      (∀ c ∈ s.offspring, env.hasChanged c = true ∧ 0 < env.size c) →
      ∀ c ∈ (pairStep env cfg population s).offspring,
        env.hasChanged c = true ∧ 0 < env.size c := by
    intro s hs c hc
    exact (pairStep_mem env cfg population s c hc).elim (hs c) id
  have hstep2 : ∀ s : BreedState α ρ,
      (∀ c ∈ s.offspring, env.hasChanged c = true ∧ 0 < env.size c) →
      ∀ c ∈ (injectStep env archive s).offspring,
        env.hasChanged c = true ∧ 0 < env.size c := by
    intro s hs c hc
    exact (injectStep_mem env archive s c hc).elim (hs c) id
  simp only [breedNextGeneration]
  exact foldl_const_pres (injectStep env archive)
    (fun s => ∀ c ∈ s.offspring, env.hasChanged c = true ∧ 0 < env.size c) hstep2
    (List.range (injectionIterations cfg)) _
    (foldl_const_pres (pairStep env cfg population)
      (fun s => ∀ c ∈ s.offspring, env.hasChanged c = true ∧ 0 < env.size c) hstep1
      (List.range (cfg.population / 2)) _ (by simp))

theorem C3_offspring_validity_witness :
    (106 ∈ (breedNextGeneration envX cfgX archiveX [5, 7] 0).offspring)
    ∧ (envX.hasChanged 106 = true ∧ 0 < envX.size 106) :=
  ⟨by decide, C3_offspring_validity envX cfgX archiveX [5, 7] 0 106 (by decide)⟩

/-! ## Crossover failure handling and injection branches -/

/-- Claim C4: when the crossover attempt of a pair raises
`ConstructionFailedException`, the iteration keeps the offspring list
unchanged (both offspring discarded), performs no mutation and no further
selection (the two recorded `selectCall`s are the only ones), and the step
returns normally with the post-failure generator state, so the loop simply
proceeds to the next pair. -/
theorem C4_crossover_failure_discards {α φ ρ : Type} (env : Env α φ ρ) (cfg : Config)
    (population : List α) (s : BreedState α ρ) (parent_1 parent_2 : α) (f : ℚ)
    (r1 r2 r3 r4 : ρ)
    (h1 : env.select population s.rng = (parent_1, r1))
    (h2 : env.select population r1 = (parent_2, r2))
    (h3 : env.nextFloat r2 = (f, r3))
    (h4 : f ≤ cfg.crossover_rate)
    (h5 : env.crossOver (env.clone parent_1) (env.clone parent_2) r3 = (none, r4)) :
    pairStep env cfg population s
      = { offspring := s.offspring, rng := r4,
          trace := s.trace ++ [Event.pairIteration, Event.selectCall, Event.selectCall,
            Event.crossOverCall true] } := by
  simp only [pairStep, h1, h2, h3]
  rw [if_pos h4]
  simp [h5, List.append_assoc]

/-- Environment like `envX` but whose crossover always raises
`ConstructionFailedException`. -/
def envFail : Env Nat Unit Nat :=
  { envX with crossOver := fun _ _ r => (none, r + 1) }

theorem C4_crossover_failure_discards_witness :
    (envFail.select [5, 7] 0 = (5, 1)
    ∧ envFail.select [5, 7] 1 = (5, 2)
    ∧ envFail.nextFloat 2 = (0, 3)
    ∧ ((0 : ℚ) ≤ cfgX.crossover_rate)
    ∧ envFail.crossOver (envFail.clone 5) (envFail.clone 5) 3 = (none, 4))
    ∧ pairStep envFail cfgX [5, 7] { offspring := [], rng := 0, trace := [] }
      = { offspring := [], rng := 4,
          trace := [Event.pairIteration, Event.selectCall, Event.selectCall,
            Event.crossOverCall true] } :=
  ⟨⟨rfl, rfl, rfl, by decide, rfl⟩,
    C4_crossover_failure_discards envFail cfgX [5, 7]
      { offspring := [], rng := 0, trace := [] } 5 5 0 1 2 3 4 rfl rfl rfl (by decide) rfl⟩

/-- Claim C6: case analysis of one random-injection iteration. When
`covered_goals` is empty the factory branch is taken unconditionally and the
coin is not tossed; otherwise a true `next_bool()` takes the factory branch
and a false one clones a `choice` of the archive's solutions and mutates it
once; in each case the result is retained under the same
changed-and-size-positive guard as bred offspring. -/
theorem C6_injection_branches {α φ ρ γ : Type} (env : Env α φ ρ) (archive : Archive γ α)
    (s : BreedState α ρ) :
    (archive.covered_goals = [] →
      injectStep env archive s
        = { offspring := keepIfValid env s.offspring
              (env.fitnessFunctions.foldl env.addFitnessFunction (env.getChromosome s.rng).1),
            rng := (env.getChromosome s.rng).2,
            trace := s.trace ++ [Event.injectionIteration, Event.getChromosomeCall] })
    ∧ (archive.covered_goals ≠ [] → (env.nextBool s.rng).1 = true →
      injectStep env archive s
        = { offspring := keepIfValid env s.offspring
              (env.fitnessFunctions.foldl env.addFitnessFunction
                (env.getChromosome (env.nextBool s.rng).2).1),
            rng := (env.getChromosome (env.nextBool s.rng).2).2,
            trace := s.trace ++ [Event.injectionIteration, Event.getChromosomeCall] })
    ∧ (archive.covered_goals ≠ [] → (env.nextBool s.rng).1 = false →
      injectStep env archive s
        = { offspring := keepIfValid env s.offspring
              (env.mutate (env.clone (env.choice archive.solutions (env.nextBool s.rng).2).1)
                (env.choice archive.solutions (env.nextBool s.rng).2).2).1,
            rng := (env.mutate (env.clone (env.choice archive.solutions (env.nextBool s.rng).2).1)
                (env.choice archive.solutions (env.nextBool s.rng).2).2).2,
            trace := s.trace
              ++ [Event.injectionIteration, Event.choiceCall, Event.mutateCall] }) := by
  refine ⟨?_, ?_, ?_⟩
  · intro h
    simp only [injectStep]
    rw [if_pos (by simp [h])]
    simp [List.append_assoc]
  · intro h hb
    simp only [injectStep]
    rw [if_neg (by simp [h]), if_pos hb]
    simp [List.append_assoc]
  · intro h hb
    simp only [injectStep]
    rw [if_neg (by simp [h]), if_neg (by simp [hb])]
    simp [List.append_assoc]

theorem C6_injection_branches_witness :
    (archiveX.covered_goals = [])
    ∧ injectStep envX archiveX { offspring := [], rng := 0, trace := [] }
      = { offspring := keepIfValid envX []
            (envX.fitnessFunctions.foldl envX.addFitnessFunction (envX.getChromosome 0).1),
          rng := (envX.getChromosome 0).2,
          trace := [Event.injectionIteration, Event.getChromosomeCall] } :=
  ⟨rfl, (C6_injection_branches envX archiveX { offspring := [], rng := 0, trace := [] }).1 rfl⟩

/-! ## `_sort_population` (lines 138-140) -/

/-- `self._population.sort(key=lambda x: x.get_fitness())`: a stable sort of
the population by the scalar `get_fitness()` value, ascending. -/
def sortPopulation {α : Type} (getFitness : α → ℚ) (population : List α) : List α :=
  population.mergeSort (fun a b => decide (getFitness a ≤ getFitness b))

/-- Claim C9: `_sort_population` leaves the population a permutation of its
former self, arranged in non-decreasing order of the scalar
`get_fitness()` value. -/
theorem C9_sort_population {α : Type} (getFitness : α → ℚ) (population : List α) :
    (sortPopulation getFitness population).Perm population
    ∧ (sortPopulation getFitness population).Pairwise
        (fun a b => getFitness a ≤ getFitness b) := by
  constructor
  · exact List.mergeSort_perm population _
  · have htrans : ∀ (a b c : α),
        (fun a b => decide (getFitness a ≤ getFitness b)) a b = true →
        (fun a b => decide (getFitness a ≤ getFitness b)) b c = true →
        (fun a b => decide (getFitness a ≤ getFitness b)) a c = true := by
      intro a b c hab hbc
      simp only [decide_eq_true_eq] at *
      exact le_trans hab hbc
    have htotal : ∀ (a b : α),
        ((fun a b => decide (getFitness a ≤ getFitness b)) a b
          || (fun a b => decide (getFitness a ≤ getFitness b)) b a) = true := by
      intro a b
      simp [le_total]
    have h := List.sorted_mergeSort htrans htotal population
    exact h.imp (by intro a b hab; simpa using hab)

/-! ## `AssertionToAstVisitor._get_comparison_object`
(`assertion_to_ast.py`, lines 26-27 and 405-412)

`_obj_index` is a class attribute, incremented through the class
(`AssertionToAstVisitor._obj_index += 1`), so one counter is shared by all
visitor instances of the process; `_obj_stack` is a per-instance attribute.
The process state is the counter plus the stack of every instance
(instances indexed by `ι`). -/

structure VisitorState (ι : Type) where
  objIndex : Nat
  objStack : ι → List String

/-- The class attribute `COMPARISON_OBJECT_IDENTIFIER: str = "obj"`. -/
def COMPARISON_OBJECT_IDENTIFIER : String := "obj"

/-- `_get_comparison_object_name` (lines 414-415): the identifier prefixed
to the current class-level counter value. -/
def getComparisonObjectName {ι : Type} (s : VisitorState ι) : String :=
  COMPARISON_OBJECT_IDENTIFIER ++ toString s.objIndex

/-- `_get_comparison_object` (lines 405-410) called on instance `i`: read
the name for the current counter, increment the class-level counter, push
the name on instance `i`'s stack, return the name. -/
def getComparisonObject {ι : Type} [DecidableEq ι] (i : ι) (s : VisitorState ι) :
    String × VisitorState ι :=
  let obj_id := getComparisonObjectName s
  (obj_id,
    { objIndex := s.objIndex + 1,
      objStack := fun j => if j = i then s.objStack j ++ [obj_id] else s.objStack j })

/-- A sequence of `_get_comparison_object` calls, each on some instance,
returning the names in call order. -/
def runCalls {ι : Type} [DecidableEq ι] : List ι → VisitorState ι → List String × VisitorState ι
  | [], s => ([], s)
  | i :: is, s =>
    let (n, s1) := getComparisonObject i s
    let (ns, s2) := runCalls is s1
    (n :: ns, s2)

lemma runCalls_names {ι : Type} [DecidableEq ι] :
    ∀ (calls : List ι) (s : VisitorState ι),
      (runCalls calls s).1
        = (List.range calls.length).map
            (fun k => COMPARISON_OBJECT_IDENTIFIER ++ toString (s.objIndex + k))
      ∧ (runCalls calls s).2.objIndex = s.objIndex + calls.length := by
  intro calls
  induction calls with
  | nil => intro s; simp [runCalls]
  | cons i is ih =>
    intro s
    obtain ⟨h1, h2⟩ := ih ((getComparisonObject i s).2)
    have hidx : (getComparisonObject i s).2.objIndex = s.objIndex + 1 := rfl
    simp only [runCalls]
    constructor
    · rw [h1, hidx, List.length_cons, List.range_succ_eq_map, List.map_cons, List.map_map]
      congr 1
      exact congrArg (fun f => List.map f (List.range is.length))
        (funext fun a => by
          simp only [Function.comp, Nat.succ_eq_add_one]
          have harg : s.objIndex + 1 + a = s.objIndex + (a + 1) := by omega
          rw [harg])
    · rw [h2, hidx, List.length_cons]
      omega

/-- Claim C10: `_obj_index` is one class-level counter shared by all
visitor instances. Any sequence of `_get_comparison_object` calls, on any
instances, returns `"obj"` followed by consecutive counter values starting
at the current one — so the generated identifiers strictly increase and are
never reused or reset across instances — and each call increments the
shared counter by one and pushes its name on exactly the calling instance's
stack. -/
theorem C10_class_level_counter {ι : Type} [DecidableEq ι] (calls : List ι)
    (s : VisitorState ι) :
    ((runCalls calls s).1
      = (List.range calls.length).map
          (fun k => COMPARISON_OBJECT_IDENTIFIER ++ toString (s.objIndex + k)))
    ∧ (runCalls calls s).2.objIndex = s.objIndex + calls.length
    ∧ (∀ i : ι,
        (getComparisonObject i s).1 = COMPARISON_OBJECT_IDENTIFIER ++ toString s.objIndex
        ∧ (getComparisonObject i s).2.objIndex = s.objIndex + 1
        ∧ (getComparisonObject i s).2.objStack i
            = s.objStack i ++ [(getComparisonObject i s).1]
        ∧ ∀ j, j ≠ i → (getComparisonObject i s).2.objStack j = s.objStack j) := by
  obtain ⟨h1, h2⟩ := runCalls_names calls s
  refine ⟨h1, h2, fun i => ⟨rfl, rfl, ?_, ?_⟩⟩
  · simp [getComparisonObject]
  · intro j hj
    simp [getComparisonObject, hj]

theorem C10_class_level_counter_witness :
    ((1 : Nat) ≠ 0)
    ∧ (getComparisonObject (0 : Nat) { objIndex := 5, objStack := fun _ => [] }).2.objStack 1
      = ({ objIndex := 5, objStack := fun _ => [] } : VisitorState Nat).objStack 1 :=
  ⟨by decide,
    ((C10_class_level_counter [] { objIndex := 5, objStack := fun _ => [] }).2.2 0).2.2.2 1
      (by decide)⟩
